import Mathlib

/-!
Shallow embedding of the render_graph_v2 resource layer of the repository
(crates/bevy_render/src/render_graph_v2/resource/mod.rs and
crates/bevy_render/src/render_graph_v2/mod.rs), together with proofs about
its resource store, dependency sets and node-context access control.

HashMap and HashSet are modelled as association lists and duplicate-free
lists; u16 arithmetic is modelled as Nat with explicit reduction mod 2^16.
World and device values are abstract type parameters; deferred initializer
closures are functions from world and device to a meta.
-/

namespace RenderGraphV2

/-- 2^16, the modulus for u16 wraparound arithmetic. -/
def U16 : Nat := 65536

/-- resource/mod.rs RenderResourceId: a generational id with u16 index and
generation fields. -/
structure RenderResourceId where
  index : Nat
  generation : Nat
deriving DecidableEq

/-- resource/mod.rs RenderResourceMeta: optional descriptor plus realized
data. -/
structure RenderResourceMeta (Desc Data : Type) where
  descriptor : Option Desc
  resource : Data
deriving DecidableEq

/-- resource/mod.rs DeferredResourceInit: a closure producing a meta given
world and device access. -/
def DeferredResourceInit (Desc Data W D : Type) : Type :=
  W → D → RenderResourceMeta Desc Data

/-- resource/mod.rs RenderResourceInit: an eagerly available meta or a
deferred initializer. -/
inductive RenderResourceInit (Desc Data W D : Type) where
  | Eager (meta : RenderResourceMeta Desc Data)
  | Deferred (init : DeferredResourceInit Desc Data W D)

/-- The meta an init denotes once realized: the eager meta itself, or the
result of running the deferred initializer. -/
def RenderResourceInit.realize {Desc Data W D : Type}
    (init : RenderResourceInit Desc Data W D) (world : W) (device : D) :
    RenderResourceMeta Desc Data :=
  match init with
  | .Eager meta => meta
  | .Deferred f => f world device

/-- Whether an init is the deferred variant. -/
def RenderResourceInit.isDeferred {Desc Data W D : Type} :
    RenderResourceInit Desc Data W D → Bool
  | .Eager _ => false
  | .Deferred _ => true

/-! ### Association-list model of HashMap -/

/-- Lookup in an association list (HashMap::get). -/
def alookup {K β : Type} [DecidableEq K] (k : K) : List (K × β) → Option β
  | [] => none
  | p :: rest => if p.1 = k then some p.2 else alookup k rest

/-- Remove every entry with the given key. -/
def eraseKey {K β : Type} [DecidableEq K] (k : K) : List (K × β) → List (K × β)
  | [] => []
  | p :: rest => if p.1 = k then eraseKey k rest else p :: eraseKey k rest

/-- HashMap::insert: associate the key with the value, replacing any older
entry for that key. -/
def upsert {K β : Type} [DecidableEq K] (k : K) (v : β) (m : List (K × β)) :
    List (K × β) :=
  (k, v) :: eraseKey k m

/-- The keys of an association list. -/
def keysOf {K β : Type} (m : List (K × β)) : List K :=
  m.map Prod.fst

/-- HashSet::insert: add an element unless already present. -/
def hsInsert {α : Type} [DecidableEq α] (a : α) (s : List α) : List α :=
  if a ∈ s then s else a :: s

theorem alookup_upsert_self {K β : Type} [DecidableEq K] (k : K) (v : β)
    (m : List (K × β)) : alookup k (upsert k v m) = some v := by
  simp [alookup, upsert]

theorem alookup_eraseKey_ne {K β : Type} [DecidableEq K] {k k2 : K}
    (h : k2 ≠ k) (m : List (K × β)) :
    alookup k2 (eraseKey k m) = alookup k2 m := by
  induction m with
  | nil => rfl
  | cons p rest ih =>
    by_cases hp : p.1 = k
    · have hk2 : ¬(k = k2) := fun hh => h hh.symm
      simp [eraseKey, hp, alookup, hk2, ih]
    · simp only [eraseKey, hp, if_false, alookup]
      by_cases hpk : p.1 = k2
      · simp [hpk]
      · simp [hpk, ih]

theorem alookup_upsert_ne {K β : Type} [DecidableEq K] {k k2 : K}
    (h : k2 ≠ k) (v : β) (m : List (K × β)) :
    alookup k2 (upsert k v m) = alookup k2 m := by
  have hne : k ≠ k2 := fun hh => h hh.symm
  simp only [upsert, alookup, hne, if_false]
  exact alookup_eraseKey_ne h m

theorem eraseKey_sublist {K β : Type} [DecidableEq K] (k : K)
    (m : List (K × β)) : (eraseKey k m).Sublist m := by
  induction m with
  | nil => simp [eraseKey]
  | cons p rest ih =>
    by_cases hp : p.1 = k
    · simp only [eraseKey, hp, if_true]
      exact ih.cons p
    · simp only [eraseKey, hp, if_false]
      exact ih.cons₂ p

theorem notMem_keysOf_eraseKey {K β : Type} [DecidableEq K] (k : K)
    (m : List (K × β)) : k ∉ keysOf (eraseKey k m) := by
  induction m with
  | nil => simp [eraseKey, keysOf]
  | cons p rest ih =>
    by_cases hp : p.1 = k
    · simpa [eraseKey, hp] using ih
    · simp only [eraseKey, hp, if_false, keysOf, List.map_cons, List.mem_cons]
      rintro (h1 | h2)
      · exact hp h1.symm
      · exact ih h2

theorem nodup_keysOf_upsert {K β : Type} [DecidableEq K] (k : K) (v : β)
    {m : List (K × β)} (h : (keysOf m).Nodup) :
    (keysOf (upsert k v m)).Nodup := by
  have hsub : (keysOf (eraseKey k m)).Sublist (keysOf m) :=
    (eraseKey_sublist k m).map Prod.fst
  have hnd : (keysOf (eraseKey k m)).Nodup := h.sublist hsub
  simp only [upsert, keysOf, List.map_cons, List.nodup_cons]
  exact ⟨notMem_keysOf_eraseKey k m, hnd⟩

theorem alookup_eq_none_of_notMem {K β : Type} [DecidableEq K] {k : K}
    {m : List (K × β)} (h : k ∉ keysOf m) : alookup k m = none := by
  induction m with
  | nil => rfl
  | cons p rest ih =>
    simp only [keysOf, List.map_cons, List.mem_cons] at h
    push_neg at h
    have hp : p.1 ≠ k := fun hh => h.1 hh.symm
    simp only [alookup, hp, if_false]
    exact ih h.2

theorem mem_keysOf_of_alookup {K β : Type} [DecidableEq K] {k : K} {v : β}
    {m : List (K × β)} (h : alookup k m = some v) : k ∈ keysOf m := by
  by_contra hc
  rw [alookup_eq_none_of_notMem hc] at h
  exact Option.noConfusion h

theorem alookup_ne_none_of_mem {K β : Type} [DecidableEq K] {p : K × β}
    {m : List (K × β)} (h : p ∈ m) : alookup p.1 m ≠ none := by
  induction m with
  | nil => exact absurd h (List.not_mem_nil p)
  | cons q rest ih =>
    rcases List.mem_cons.mp h with h1 | h2
    · subst h1
      simp [alookup]
    · by_cases hq : q.1 = p.1
      · simp [alookup, hq]
      · simp only [alookup, hq, if_false]
        exact ih h2

theorem mem_keysOf_upsert {K β : Type} [DecidableEq K] {i k : K} {v : β}
    {m : List (K × β)} (h : i ∈ keysOf (upsert k v m)) :
    i = k ∨ i ∈ keysOf m := by
  simp only [upsert, keysOf, List.map_cons, List.mem_cons] at h
  rcases h with h1 | h2
  · exact Or.inl h1
  · exact Or.inr (List.map_subset Prod.fst
      (List.Sublist.subset (eraseKey_sublist k m)) h2)

theorem mem_hsInsert_self {α : Type} [DecidableEq α] (a : α) (s : List α) :
    a ∈ hsInsert a s := by
  by_cases h : a ∈ s
  · simp [hsInsert, h]
  · simp [hsInsert, h]

/-! ### SimpleResourceStore -/

/-- resource/mod.rs SimpleResourceStore: per-kind store with retained
(last-frame), current, queued and to-save maps. Labels have abstract type
L (InternedRenderLabel). -/
structure SimpleResourceStore (L Desc Data W D : Type) where
  last_frame_resources : List (L × RenderResourceMeta Desc Data)
  current_resources : List (Nat × RenderResourceMeta Desc Data)
  queued_resources : List (Nat × DeferredResourceInit Desc Data W D)
  resources_to_save : List (Nat × L)

/-- impl Default for SimpleResourceStore: all four maps empty. -/
def SimpleResourceStore.default (L Desc Data W D : Type) :
    SimpleResourceStore L Desc Data W D :=
  ⟨[], [], [], []⟩

variable {L Desc Data W D Rty : Type}

/-- Inherent SimpleResourceStore::insert: an Eager init goes into
current_resources under the id's index, a Deferred init into
queued_resources. The map insert replaces any previous entry. -/
def SimpleResourceStore.insert [DecidableEq L]
    (s : SimpleResourceStore L Desc Data W D) (key : RenderResourceId)
    (resource : RenderResourceInit Desc Data W D) :
    SimpleResourceStore L Desc Data W D :=
  match resource with
  | .Eager meta =>
    { s with current_resources := upsert key.index meta s.current_resources }
  | .Deferred init =>
    { s with queued_resources := upsert key.index init s.queued_resources }

/-- Inherent SimpleResourceStore::init_deferred: drain queued_resources,
running each initializer with the world and device and inserting the result
into current_resources. -/
def SimpleResourceStore.init_deferred [DecidableEq L]
    (s : SimpleResourceStore L Desc Data W D) (world : W) (device : D) :
    SimpleResourceStore L Desc Data W D :=
  { s with
    current_resources :=
      s.queued_resources.foldl
        (fun cur p => upsert p.1 (p.2 world device) cur) s.current_resources,
    queued_resources := [] }

/-- Inherent SimpleResourceStore::get_data: look up current_resources by the
id's index only. -/
def SimpleResourceStore.get_data [DecidableEq L]
    (s : SimpleResourceStore L Desc Data W D) (key : RenderResourceId) :
    Option (RenderResourceMeta Desc Data) :=
  alookup key.index s.current_resources

/-- Inherent SimpleResourceStore::reset: clear last_frame_resources, then
drain current_resources, saving each meta whose index is marked in
resources_to_save under the mapped label. queued_resources and
resources_to_save are not touched. -/
def SimpleResourceStore.reset [DecidableEq L]
    (s : SimpleResourceStore L Desc Data W D) :
    SimpleResourceStore L Desc Data W D :=
  { s with
    last_frame_resources :=
      s.current_resources.foldl
        (fun lf p =>
          match alookup p.1 s.resources_to_save with
          | some label => upsert label p.2 lf
          | none => lf)
        [],
    current_resources := [] }

/-- Modelled from the spec: RetainedRenderStore::mark_retain for
SimpleResourceStore is a todo-panic placeholder in the source; the spec says
it records that this index's meta should survive the frame boundary under
the given label. Modelled as a map insert into resources_to_save. -/
def SimpleResourceStore.mark_retain [DecidableEq L]
    (s : SimpleResourceStore L Desc Data W D) (key : Nat) (label : L) :
    SimpleResourceStore L Desc Data W D :=
  { s with resources_to_save := upsert key label s.resources_to_save }

/-! ### Panicking trait implementation of RenderStore -/

/-- The distinct panic sites of the embedded code. -/
inductive RenderPanic where
  | todoUnimplemented
  | accessViolation
  | resolveFailure
deriving DecidableEq

/-- impl RenderStore for SimpleResourceStore, fn insert: the body is a
todo-panic. -/
def RenderStore.insert (s : SimpleResourceStore L Desc Data W D) (key : Nat)
    (data : RenderResourceInit Desc Data W D) :
    Except RenderPanic (SimpleResourceStore L Desc Data W D) :=
  Except.error RenderPanic.todoUnimplemented

/-- impl RenderStore for SimpleResourceStore, fn get: the body is a
todo-panic. -/
def RenderStore.get (s : SimpleResourceStore L Desc Data W D) (world : W)
    (key : Nat) :
    Except RenderPanic (Option (RenderResourceMeta Desc Data)) :=
  Except.error RenderPanic.todoUnimplemented

/-- impl RenderStore for SimpleResourceStore, fn init_queued_resources: the
body is a todo-panic. -/
def RenderStore.init_queued_resources
    (s : SimpleResourceStore L Desc Data W D) (world : W) (device : D) :
    Except RenderPanic (SimpleResourceStore L Desc Data W D) :=
  Except.error RenderPanic.todoUnimplemented

/-! ### Handles and dependency sets -/

/-- resource/mod.rs RenderHandle: a copyable wrapper around a
RenderResourceId (the phantom resource-kind parameter is erased). -/
structure RenderHandle where
  id : RenderResourceId
deriving DecidableEq

/-- resource/mod.rs RenderDependency: a read, read-write or bind-group
dependency descriptor. Bind groups are modelled by Nat identity. -/
inductive RenderDependency where
  | Read (id : RenderResourceId)
  | ReadWrite (id : RenderResourceId)
  | BindGroup (bg : Nat)
deriving DecidableEq

/-- resource/mod.rs RenderDependencies: the reads, writes and bind_groups
hash sets, modelled as duplicate-free lists. -/
structure RenderDependencies where
  reads : List RenderResourceId
  writes : List RenderResourceId
  bind_groups : List Nat
deriving DecidableEq

/-- derive Default for RenderDependencies: all three sets empty. -/
def RenderDependencies.default : RenderDependencies :=
  ⟨[], [], []⟩

/-- RenderDependencies::add, after the polymorphic argument has been turned
into a RenderDependency: insert the id or bind group into the matching set. -/
def RenderDependencies.add (deps : RenderDependencies)
    (dependency : RenderDependency) : RenderDependencies :=
  match dependency with
  | .Read id => { deps with reads := hsInsert id deps.reads }
  | .ReadWrite id => { deps with writes := hsInsert id deps.writes }
  | .BindGroup bg => { deps with bind_groups := hsInsert bg deps.bind_groups }

/-- RenderDependencies::contains_resource: the handle's id is in reads or in
writes. -/
def RenderDependencies.contains_resource (deps : RenderDependencies)
    (resource : RenderHandle) : Bool :=
  decide (resource.id ∈ deps.reads) || decide (resource.id ∈ deps.writes)

/-- RenderDependencies::contains_bind_group. -/
def RenderDependencies.contains_bind_group (deps : RenderDependencies)
    (bind_group : Nat) : Bool :=
  decide (bind_group ∈ deps.bind_groups)

/-- impl IntoRenderDependency for a shared borrow of RenderHandle: produce
Read(self.id), leaving the handle untouched. -/
def RenderHandle.into_render_dependency_ref (h : RenderHandle) :
    RenderDependency :=
  RenderDependency.Read h.id

/-- impl IntoRenderDependency for a mutable borrow of RenderHandle: capture
ReadWrite(self.id) with the handle's id as it is now, then bump the handle's
generation by one (u16 wraparound). Returns the produced dependency and the
handle after the side effect. -/
def RenderHandle.into_render_dependency_mut (h : RenderHandle) :
    RenderDependency × RenderHandle :=
  (RenderDependency.ReadWrite h.id,
    ⟨⟨h.id.index, (h.id.generation + 1) % U16⟩⟩)

/-- Declaring a handle as a read: add the Read dependency; the handle is
unchanged. -/
def RenderDependencies.add_read (deps : RenderDependencies)
    (h : RenderHandle) : RenderDependencies × RenderHandle :=
  (deps.add (RenderHandle.into_render_dependency_ref h), h)

/-- Declaring a handle as a read-write: add the ReadWrite dependency
produced from the mutable borrow, returning the updated dependency set and
the handle after its generation bump. -/
def RenderDependencies.add_read_write (deps : RenderDependencies)
    (h : RenderHandle) : RenderDependencies × RenderHandle :=
  let p := RenderHandle.into_render_dependency_mut h
  (deps.add p.1, p.2)

/-! ### Node execution context and graph -/

/-- mod.rs NodeContext, restricted to the parts get uses: the node's
attached dependencies, the store reached through the graph for the resource
kind, and the world. -/
structure NodeContext (L Desc Data W D : Type) where
  dependencies : RenderDependencies
  store : SimpleResourceStore L Desc Data W D
  world : W

/-- mod.rs NodeContext::get: panic with an access violation if the handle is
not contained in the node's dependencies; otherwise look the index up
through the RenderStore trait get, convert the meta's data with from_data,
and panic with a resolution failure if either step yields nothing. -/
def NodeContext.get (ctx : NodeContext L Desc Data W D)
    (from_data : Data → W → Option Rty) (resource : RenderHandle) :
    Except RenderPanic Rty :=
  if ctx.dependencies.contains_resource resource = false then
    Except.error RenderPanic.accessViolation
  else
    match RenderStore.get ctx.store ctx.world resource.id.index with
    | Except.error e => Except.error e
    | Except.ok none => Except.error RenderPanic.resolveFailure
    | Except.ok (some meta) =>
      match from_data meta.resource ctx.world with
      | some r => Except.ok r
      | none => Except.error RenderPanic.resolveFailure

/-- mod.rs RenderGraph, restricted to the parts new_resource uses: the
monotone id allocator and one SimpleResourceStore standing for the store of
the requested resource kind. -/
structure RenderGraph (L Desc Data W D : Type) where
  next_id : Nat
  textures : SimpleResourceStore L Desc Data W D

/-- derive Default for RenderGraph: allocator at zero, empty store. -/
def RenderGraph.default (L Desc Data W D : Type) : RenderGraph L Desc Data W D :=
  ⟨0, SimpleResourceStore.default L Desc Data W D⟩

/-- mod.rs RenderGraphBuilder::new_resource: read the allocator, insert the
converted resource through the RenderStore trait method (generic dispatch,
so the panicking trait impl, not the inherent method), advance the
allocator, and return a handle with the read index and generation 0. -/
def RenderGraphBuilder.new_resource (graph : RenderGraph L Desc Data W D)
    (resource : RenderResourceInit Desc Data W D) :
    Except RenderPanic (RenderGraph L Desc Data W D × RenderHandle) :=
  let next_id := graph.next_id
  match RenderStore.insert graph.textures next_id resource with
  | Except.error e => Except.error e
  | Except.ok st =>
    Except.ok
      ({ graph with textures := st, next_id := (graph.next_id + 1) % U16 },
        ⟨⟨next_id, 0⟩⟩)

/-! ### Operation traces over the store -/

/-- One inherent-method operation on a SimpleResourceStore. -/
inductive StoreOp (L Desc Data W D : Type) where
  | insertOp (key : RenderResourceId)
      (init : RenderResourceInit Desc Data W D)
  | initDeferredOp (world : W) (device : D)
  | getDataOp (key : RenderResourceId)
  | resetOp

/-- Apply one operation to a store; get_data borrows the store immutably and
leaves the state unchanged. -/
def StoreOp.apply [DecidableEq L] (s : SimpleResourceStore L Desc Data W D) :
    StoreOp L Desc Data W D → SimpleResourceStore L Desc Data W D
  | .insertOp key init => s.insert key init
  | .initDeferredOp world device => s.init_deferred world device
  | .getDataOp _ => s
  | .resetOp => s.reset

/-- Apply a sequence of operations, first element first. -/
def applyOps [DecidableEq L] (s : SimpleResourceStore L Desc Data W D)
    (ops : List (StoreOp L Desc Data W D)) :
    SimpleResourceStore L Desc Data W D :=
  ops.foldl StoreOp.apply s

/-- The indices passed to the insert operations of a trace, in order. -/
def insertedIndices : List (StoreOp L Desc Data W D) → List Nat
  | [] => []
  | .insertOp key _ :: rest => key.index :: insertedIndices rest
  | _ :: rest => insertedIndices rest

/-- Build a store by a sequence of inherent inserts from the default store. -/
def buildStore [DecidableEq L]
    (ops : List (RenderResourceId × RenderResourceInit Desc Data W D)) :
    SimpleResourceStore L Desc Data W D :=
  ops.foldl (fun s p => s.insert p.1 p.2) (SimpleResourceStore.default L Desc Data W D)

/-! ### Lemmas about alookup -/

theorem alookup_some_mem {K β : Type} [DecidableEq K] {k : K} {v : β}
    {m : List (K × β)} (h : alookup k m = some v) : (k, v) ∈ m := by
  induction m with
  | nil => exact Option.noConfusion h
  | cons p rest ih =>
    by_cases hp : p.1 = k
    · simp only [alookup, hp, if_true, Option.some.injEq] at h
      have hpe : p = (k, v) := by
        obtain ⟨p1, p2⟩ := p
        simp only at hp h
        rw [hp, h]
      rw [hpe]
      exact List.mem_cons_self _ _
    · simp only [alookup, hp, if_false] at h
      exact List.mem_cons_of_mem p (ih h)

theorem alookup_of_mem_nodup {K β : Type} [DecidableEq K] {p : K × β}
    {m : List (K × β)} (hnd : (keysOf m).Nodup) (h : p ∈ m) :
    alookup p.1 m = some p.2 := by
  induction m with
  | nil => exact absurd h (List.not_mem_nil p)
  | cons q rest ih =>
    simp only [keysOf, List.map_cons, List.nodup_cons] at hnd
    rcases List.mem_cons.mp h with h1 | h2
    · subst h1
      simp [alookup]
    · have hq : q.1 ≠ p.1 := by
        intro he
        exact hnd.1 (he ▸ List.mem_map_of_mem Prod.fst h2)
      simp only [alookup, hq, if_false]
      exact ih hnd.2 h2

theorem alookup_ne_none_of_mem_keysOf {K β : Type} [DecidableEq K] {k : K}
    {m : List (K × β)} (h : k ∈ keysOf m) : alookup k m ≠ none := by
  simp only [keysOf, List.mem_map] at h
  obtain ⟨p, hp, he⟩ := h
  exact he ▸ alookup_ne_none_of_mem hp

theorem notMem_keysOf_of_alookup_none {K β : Type} [DecidableEq K] {k : K}
    {m : List (K × β)} (h : alookup k m = none) : k ∉ keysOf m :=
  fun hc => alookup_ne_none_of_mem_keysOf hc h

/-! ### Lemmas about folds of inserts -/

variable [DecidableEq L]

theorem foldInsert_lookup_notMem
    (ops : List (RenderResourceId × RenderResourceInit Desc Data W D))
    (s : SimpleResourceStore L Desc Data W D) {i : Nat}
    (h : i ∉ ops.map fun p => p.1.index) :
    alookup i
        (ops.foldl (fun s2 p => s2.insert p.1 p.2) s).current_resources
      = alookup i s.current_resources
    ∧ alookup i
        (ops.foldl (fun s2 p => s2.insert p.1 p.2) s).queued_resources
      = alookup i s.queued_resources := by
  induction ops generalizing s with
  | nil => exact ⟨rfl, rfl⟩
  | cons p rest ih =>
    simp only [List.map_cons, List.mem_cons] at h
    push_neg at h
    obtain ⟨h1, h2⟩ := h
    rw [List.foldl_cons]
    have hmain := ih (s.insert p.1 p.2) h2
    have hcur : alookup i (s.insert p.1 p.2).current_resources
        = alookup i s.current_resources := by
      cases hinit : p.2 with
      | Eager meta =>
        simp only [SimpleResourceStore.insert]
        exact alookup_upsert_ne h1 meta s.current_resources
      | Deferred f => simp [SimpleResourceStore.insert]
    have hque : alookup i (s.insert p.1 p.2).queued_resources
        = alookup i s.queued_resources := by
      cases hinit : p.2 with
      | Eager meta => simp [SimpleResourceStore.insert]
      | Deferred f =>
        simp only [SimpleResourceStore.insert]
        exact alookup_upsert_ne h1 f s.queued_resources
    exact ⟨hmain.1.trans hcur, hmain.2.trans hque⟩

theorem foldInsert_lookup_eager
    (ops : List (RenderResourceId × RenderResourceInit Desc Data W D))
    (s : SimpleResourceStore L Desc Data W D)
    {k : RenderResourceId} {meta : RenderResourceMeta Desc Data}
    (hnd : (ops.map fun p => p.1.index).Nodup)
    (hmem : (k, RenderResourceInit.Eager meta) ∈ ops) :
    alookup k.index
        (ops.foldl (fun s2 p => s2.insert p.1 p.2) s).current_resources
      = some meta
    ∧ alookup k.index
        (ops.foldl (fun s2 p => s2.insert p.1 p.2) s).queued_resources
      = alookup k.index s.queued_resources := by
  induction ops generalizing s with
  | nil => exact absurd hmem (List.not_mem_nil _)
  | cons p rest ih =>
    simp only [List.map_cons, List.nodup_cons] at hnd
    rw [List.foldl_cons]
    rcases List.mem_cons.mp hmem with h1 | h2
    · subst h1
      have hrest := foldInsert_lookup_notMem rest
        (s.insert k (RenderResourceInit.Eager meta)) hnd.1
      refine ⟨hrest.1.trans ?_, hrest.2.trans ?_⟩
      · simp only [SimpleResourceStore.insert]
        exact alookup_upsert_self k.index meta s.current_resources
      · simp [SimpleResourceStore.insert]
    · have hki : k.index ∈ rest.map fun p => p.1.index := by
        refine List.mem_map.mpr ⟨(k, RenderResourceInit.Eager meta), h2, rfl⟩
      have hne : k.index ≠ p.1.index := fun he => hnd.1 (he ▸ hki)
      have hmain := ih (s.insert p.1 p.2) hnd.2 h2
      have hque : alookup k.index (s.insert p.1 p.2).queued_resources
          = alookup k.index s.queued_resources := by
        cases hpi : p.2 with
        | Eager m2 => simp [SimpleResourceStore.insert]
        | Deferred f2 =>
          simp only [SimpleResourceStore.insert]
          exact alookup_upsert_ne hne f2 s.queued_resources
      exact ⟨hmain.1, hmain.2.trans hque⟩

theorem foldInsert_lookup_deferred
    (ops : List (RenderResourceId × RenderResourceInit Desc Data W D))
    (s : SimpleResourceStore L Desc Data W D)
    {k : RenderResourceId} {f : DeferredResourceInit Desc Data W D}
    (hnd : (ops.map fun p => p.1.index).Nodup)
    (hmem : (k, RenderResourceInit.Deferred f) ∈ ops) :
    alookup k.index
        (ops.foldl (fun s2 p => s2.insert p.1 p.2) s).current_resources
      = alookup k.index s.current_resources
    ∧ alookup k.index
        (ops.foldl (fun s2 p => s2.insert p.1 p.2) s).queued_resources
      = some f := by
  induction ops generalizing s with
  | nil => exact absurd hmem (List.not_mem_nil _)
  | cons p rest ih =>
    simp only [List.map_cons, List.nodup_cons] at hnd
    rw [List.foldl_cons]
    rcases List.mem_cons.mp hmem with h1 | h2
    · subst h1
      have hrest := foldInsert_lookup_notMem rest
        (s.insert k (RenderResourceInit.Deferred f)) hnd.1
      refine ⟨hrest.1.trans ?_, hrest.2.trans ?_⟩
      · simp [SimpleResourceStore.insert]
      · simp only [SimpleResourceStore.insert]
        exact alookup_upsert_self k.index f s.queued_resources
    · have hki : k.index ∈ rest.map fun p => p.1.index := by
        refine List.mem_map.mpr ⟨(k, RenderResourceInit.Deferred f), h2, rfl⟩
      have hne : k.index ≠ p.1.index := fun he => hnd.1 (he ▸ hki)
      have hmain := ih (s.insert p.1 p.2) hnd.2 h2
      have hcur : alookup k.index (s.insert p.1 p.2).current_resources
          = alookup k.index s.current_resources := by
        cases hpi : p.2 with
        | Eager m2 =>
          simp only [SimpleResourceStore.insert]
          exact alookup_upsert_ne hne m2 s.current_resources
        | Deferred f2 => simp [SimpleResourceStore.insert]
      exact ⟨hmain.1.trans hcur, hmain.2⟩

theorem foldInsert_nodup_keys
    (ops : List (RenderResourceId × RenderResourceInit Desc Data W D))
    (s : SimpleResourceStore L Desc Data W D)
    (hc : (keysOf s.current_resources).Nodup)
    (hq : (keysOf s.queued_resources).Nodup) :
    (keysOf (ops.foldl (fun s2 p =>
        s2.insert p.1 p.2) s).current_resources).Nodup
    ∧ (keysOf (ops.foldl (fun s2 p =>
        s2.insert p.1 p.2) s).queued_resources).Nodup := by
  induction ops generalizing s with
  | nil => exact ⟨hc, hq⟩
  | cons p rest ih =>
    rw [List.foldl_cons]
    have hc2 : (keysOf (s.insert p.1 p.2).current_resources).Nodup := by
      cases hpi : p.2 with
      | Eager meta =>
        simp only [SimpleResourceStore.insert]
        exact nodup_keysOf_upsert p.1.index meta hc
      | Deferred f => simpa [SimpleResourceStore.insert] using hc
    have hq2 : (keysOf (s.insert p.1 p.2).queued_resources).Nodup := by
      cases hpi : p.2 with
      | Eager meta => simpa [SimpleResourceStore.insert] using hq
      | Deferred f =>
        simp only [SimpleResourceStore.insert]
        exact nodup_keysOf_upsert p.1.index f hq
    exact ih _ hc2 hq2

/-! ### Lemmas about the realize fold of init_deferred -/

theorem foldRealize_lookup_notMem {i : Nat} (world : W) (device : D)
    (q : List (Nat × DeferredResourceInit Desc Data W D))
    (cur : List (Nat × RenderResourceMeta Desc Data))
    (h : i ∉ keysOf q) :
    alookup i (q.foldl (fun c p => upsert p.1 (p.2 world device) c) cur)
      = alookup i cur := by
  induction q generalizing cur with
  | nil => rfl
  | cons p rest ih =>
    simp only [keysOf, List.map_cons, List.mem_cons] at h
    push_neg at h
    rw [List.foldl_cons]
    have h1 : i ≠ p.1 := fun he => h.1 he
    exact (ih _ h.2).trans (alookup_upsert_ne h1 _ cur)

theorem foldRealize_lookup_mem {i : Nat}
    {f : DeferredResourceInit Desc Data W D} (world : W) (device : D)
    (q : List (Nat × DeferredResourceInit Desc Data W D))
    (cur : List (Nat × RenderResourceMeta Desc Data))
    (hnd : (keysOf q).Nodup) (h : alookup i q = some f) :
    alookup i (q.foldl (fun c p => upsert p.1 (p.2 world device) c) cur)
      = some (f world device) := by
  induction q generalizing cur with
  | nil => exact Option.noConfusion h
  | cons p rest ih =>
    simp only [keysOf, List.map_cons, List.nodup_cons] at hnd
    rw [List.foldl_cons]
    by_cases hp : p.1 = i
    · simp only [alookup, hp, if_true, Option.some.injEq] at h
      have hnotm : i ∉ keysOf rest := hp ▸ hnd.1
      rw [foldRealize_lookup_notMem world device rest _ hnotm]
      rw [← h, ← hp]
      exact alookup_upsert_self p.1 (p.2 world device) cur
    · simp only [alookup, hp, if_false] at h
      exact ih _ hnd.2 h

theorem mem_keysOf_foldRealize {i : Nat} (world : W) (device : D)
    (q : List (Nat × DeferredResourceInit Desc Data W D))
    (cur : List (Nat × RenderResourceMeta Desc Data))
    (h : i ∈ keysOf
      (q.foldl (fun c p => upsert p.1 (p.2 world device) c) cur)) :
    i ∈ keysOf cur ∨ i ∈ keysOf q := by
  induction q generalizing cur with
  | nil => exact Or.inl h
  | cons p rest ih =>
    rw [List.foldl_cons] at h
    rcases ih _ h with h1 | h2
    · rcases mem_keysOf_upsert h1 with he | hc
      · right
        simp [keysOf, he]
      · exact Or.inl hc
    · right
      simp only [keysOf, List.map_cons, List.mem_cons]
      right
      exact h2

/-! ### Lemmas about the save fold of reset -/

theorem foldSave_lookup_none {marks : List (Nat × L)} {l : L}
    (cs : List (Nat × RenderResourceMeta Desc Data))
    (acc : List (L × RenderResourceMeta Desc Data))
    (h : ∀ p ∈ cs, ∀ l2, alookup p.1 marks = some l2 → l2 ≠ l) :
    alookup l (cs.foldl (fun lf p =>
      match alookup p.1 marks with
      | some label => upsert label p.2 lf
      | none => lf) acc) = alookup l acc := by
  induction cs generalizing acc with
  | nil => rfl
  | cons p rest ih =>
    rw [List.foldl_cons]
    have hrest : ∀ p2 ∈ rest, ∀ l2, alookup p2.1 marks = some l2 → l2 ≠ l :=
      fun p2 hp2 => h p2 (List.mem_cons_of_mem p hp2)
    cases hm : alookup p.1 marks with
    | none => exact ih _ hrest
    | some label =>
      have hne : label ≠ l := h p (List.mem_cons_self p rest) label hm
      rw [ih _ hrest]
      exact alookup_upsert_ne (fun he => hne he.symm) p.2 acc

theorem foldSave_lookup_saved {marks : List (Nat × L)} {l : L} {i : Nat}
    {m : RenderResourceMeta Desc Data}
    (cs : List (Nat × RenderResourceMeta Desc Data))
    (acc : List (L × RenderResourceMeta Desc Data))
    (hnd : (keysOf cs).Nodup)
    (hinj : ∀ p2 ∈ cs, alookup p2.1 marks = some l → p2.1 = i)
    (hmem : (i, m) ∈ cs) (hl : alookup i marks = some l) :
    alookup l (cs.foldl (fun lf p =>
      match alookup p.1 marks with
      | some label => upsert label p.2 lf
      | none => lf) acc) = some m := by
  induction cs generalizing acc with
  | nil => exact absurd hmem (List.not_mem_nil _)
  | cons p rest ih =>
    simp only [keysOf, List.map_cons, List.nodup_cons] at hnd
    rw [List.foldl_cons]
    rcases List.mem_cons.mp hmem with h1 | h2
    · have hp1 : p.1 = i := by rw [← h1]
      have hp2 : p.2 = m := by rw [← h1]
      have hrest : ∀ p2 ∈ rest, ∀ l2, alookup p2.1 marks = some l2 → l2 ≠ l := by
        intro p2 hp2m l2 hm2 hle
        subst hle
        have he : p2.1 = i := hinj p2 (List.mem_cons_of_mem p hp2m) hm2
        refine hnd.1 ?_
        rw [hp1, ← he]
        exact List.mem_map_of_mem Prod.fst hp2m
      rw [foldSave_lookup_none rest _ hrest]
      rw [hp1, hl, ← hp2]
      exact alookup_upsert_self l p.2 acc
    · exact ih _ hnd.2 (fun p2 hp2 => hinj p2 (List.mem_cons_of_mem p hp2)) h2

theorem foldSave_lookup_source {marks : List (Nat × L)} {l : L}
    {m : RenderResourceMeta Desc Data}
    (cs : List (Nat × RenderResourceMeta Desc Data))
    (acc : List (L × RenderResourceMeta Desc Data))
    (h : alookup l (cs.foldl (fun lf p =>
      match alookup p.1 marks with
      | some label => upsert label p.2 lf
      | none => lf) acc) = some m) :
    (∃ p ∈ cs, alookup p.1 marks = some l ∧ p.2 = m)
      ∨ alookup l acc = some m := by
  induction cs generalizing acc with
  | nil => exact Or.inr h
  | cons p rest ih =>
    rw [List.foldl_cons] at h
    rcases ih _ h with h1 | h2
    · obtain ⟨p2, hp2, hm2⟩ := h1
      exact Or.inl ⟨p2, List.mem_cons_of_mem p hp2, hm2⟩
    · revert h2
      cases hm : alookup p.1 marks with
      | none => exact fun h2 => Or.inr h2
      | some l2 =>
        intro h2
        by_cases hll : l2 = l
        · subst hll
          rw [alookup_upsert_self l2 p.2 acc] at h2
          refine Or.inl ⟨p, List.mem_cons_self p rest, hm, ?_⟩
          exact Option.some.inj h2
        · rw [alookup_upsert_ne (fun he => hll he.symm) p.2 acc] at h2
          exact Or.inr h2

/-! ### Disjointness of current and queued along operation traces -/

/-- A given index is a key of at most one of current_resources and
queued_resources. -/
def SimpleResourceStore.disjointMaps
    (s : SimpleResourceStore L Desc Data W D) : Prop :=
  ∀ i, i ∈ keysOf s.current_resources → i ∉ keysOf s.queued_resources

theorem applyOps_disjoint (ops : List (StoreOp L Desc Data W D)) :
    ∀ s : SimpleResourceStore L Desc Data W D,
    (insertedIndices ops).Nodup →
    (∀ i ∈ insertedIndices ops,
      i ∉ keysOf s.current_resources ∧ i ∉ keysOf s.queued_resources) →
    s.disjointMaps → (applyOps s ops).disjointMaps := by
  induction ops with
  | nil =>
    intro s _ _ hd
    exact hd
  | cons op rest ih =>
    intro s hnd hfresh hd
    rw [applyOps, List.foldl_cons]
    cases op with
    | insertOp key init =>
      simp only [insertedIndices, List.nodup_cons] at hnd
      have hkey := hfresh key.index (List.mem_cons_self _ _)
      have hfresh2 : ∀ i ∈ insertedIndices rest,
          i ∉ keysOf (s.insert key init).current_resources
          ∧ i ∉ keysOf (s.insert key init).queued_resources := by
        intro i hir
        have hi0 := hfresh i (List.mem_cons_of_mem _ hir)
        have hine : i ≠ key.index := fun he => hnd.1 (he ▸ hir)
        cases hinit : init with
        | Eager meta =>
          simp only [SimpleResourceStore.insert]
          refine ⟨?_, hi0.2⟩
          intro hmem
          rcases mem_keysOf_upsert hmem with he | hc
          · exact hine he
          · exact hi0.1 hc
        | Deferred f =>
          simp only [SimpleResourceStore.insert]
          refine ⟨hi0.1, ?_⟩
          intro hmem
          rcases mem_keysOf_upsert hmem with he | hc
          · exact hine he
          · exact hi0.2 hc
      have hd2 : (s.insert key init).disjointMaps := by
        cases init with
        | Eager meta =>
          intro i hi
          simp only [SimpleResourceStore.insert] at hi ⊢
          rcases mem_keysOf_upsert hi with he | hc
          · exact he ▸ hkey.2
          · exact hd i hc
        | Deferred f =>
          intro i hi
          simp only [SimpleResourceStore.insert] at hi ⊢
          intro hq
          rcases mem_keysOf_upsert hq with he | hc
          · exact hkey.1 (he ▸ hi)
          · exact hd i hi hc
      exact ih (s.insert key init) hnd.2 hfresh2 hd2
    | initDeferredOp world device =>
      have hfresh2 : ∀ i ∈ insertedIndices rest,
          i ∉ keysOf (s.init_deferred world device).current_resources
          ∧ i ∉ keysOf (s.init_deferred world device).queued_resources := by
        intro i hir
        have hi0 := hfresh i hir
        constructor
        · intro hmem
          simp only [SimpleResourceStore.init_deferred] at hmem
          rcases mem_keysOf_foldRealize world device _ _ hmem with h1 | h2
          · exact hi0.1 h1
          · exact hi0.2 h2
        · exact List.not_mem_nil i
      have hd2 : (s.init_deferred world device).disjointMaps := by
        intro i _
        exact List.not_mem_nil i
      exact ih _ hnd hfresh2 hd2
    | getDataOp key =>
      exact ih s hnd hfresh hd
    | resetOp =>
      have hfresh2 : ∀ i ∈ insertedIndices rest,
          i ∉ keysOf s.reset.current_resources
          ∧ i ∉ keysOf s.reset.queued_resources := by
        intro i hir
        have hi0 := hfresh i hir
        exact ⟨List.not_mem_nil i, hi0.2⟩
      have hd2 : s.reset.disjointMaps := by
        intro i hi
        exact absurd hi (List.not_mem_nil i)
      exact ih _ hnd hfresh2 hd2

/-! ### Claim theorems -/

/-- C1: For every sequence of inherent insert calls with pairwise-distinct
indices on a fresh SimpleResourceStore, calling init_deferred
(realize_queued) and then get_data on any inserted index returns exactly
the meta that was inserted, the eager meta unchanged or the result of
running the deferred initializer; and get_data on an index whose
initializer is still queued, before init_deferred has run, returns none. -/
theorem c1_insert_realize_get
    (ops : List (RenderResourceId × RenderResourceInit Desc Data W D))
    (hnd : (ops.map fun p => p.1.index).Nodup) (world : W) (device : D) :
    (∀ p ∈ ops,
      ((buildStore ops : SimpleResourceStore L Desc Data W D).init_deferred
          world device).get_data p.1 = some (p.2.realize world device))
    ∧ ∀ p ∈ ops, p.2.isDeferred = true →
      (buildStore ops : SimpleResourceStore L Desc Data W D).get_data p.1
        = none := by
  constructor
  · intro p hp
    cases hpi : p.2 with
    | Eager meta =>
      have hmem : (p.1, RenderResourceInit.Eager meta) ∈ ops := by
        rw [← hpi]
        exact hp
      have h1 := foldInsert_lookup_eager ops
        (SimpleResourceStore.default L Desc Data W D) hnd hmem
      have hnone : alookup p.1.index
          (buildStore ops :
            SimpleResourceStore L Desc Data W D).queued_resources = none :=
        h1.2.trans rfl
      simp only [SimpleResourceStore.get_data, SimpleResourceStore.init_deferred,
        RenderResourceInit.realize]
      rw [foldRealize_lookup_notMem world device _ _
        (notMem_keysOf_of_alookup_none hnone)]
      exact h1.1
    | Deferred f =>
      have hmem : (p.1, RenderResourceInit.Deferred f) ∈ ops := by
        rw [← hpi]
        exact hp
      have h1 := foldInsert_lookup_deferred ops
        (SimpleResourceStore.default L Desc Data W D) hnd hmem
      have hqnd := (foldInsert_nodup_keys ops
        (SimpleResourceStore.default L Desc Data W D)
        List.nodup_nil List.nodup_nil).2
      simp only [SimpleResourceStore.get_data, SimpleResourceStore.init_deferred,
        RenderResourceInit.realize]
      exact foldRealize_lookup_mem world device _ _ hqnd h1.2
  · intro p hp hdef
    cases hpi : p.2 with
    | Eager meta =>
      rw [hpi] at hdef
      exact absurd hdef (by simp [RenderResourceInit.isDeferred])
    | Deferred f =>
      have hmem : (p.1, RenderResourceInit.Deferred f) ∈ ops := by
        rw [← hpi]
        exact hp
      have h1 := foldInsert_lookup_deferred ops
        (SimpleResourceStore.default L Desc Data W D) hnd hmem
      simp only [SimpleResourceStore.get_data]
      exact h1.1.trans rfl

/-- Witness for C1 at a concrete two-element sequence: an eager meta at
index 0 and a deferred initializer at index 1. -/
theorem c1_insert_realize_get_witness :
    ((buildStore
        [(⟨0, 0⟩, RenderResourceInit.Eager ⟨some 1, 10⟩),
         (⟨1, 0⟩, RenderResourceInit.Deferred fun _ _ => ⟨none, 20⟩)]
      : SimpleResourceStore Nat Nat Nat Unit Unit).init_deferred
        () ()).get_data ⟨1, 0⟩ = some ⟨none, 20⟩
    ∧ (buildStore
        [(⟨0, 0⟩, RenderResourceInit.Eager ⟨some 1, 10⟩),
         (⟨1, 0⟩, RenderResourceInit.Deferred fun _ _ => ⟨none, 20⟩)]
      : SimpleResourceStore Nat Nat Nat Unit Unit).get_data ⟨1, 0⟩
        = none := by
  have h := @c1_insert_realize_get Nat Nat Nat Unit Unit _
    [(⟨0, 0⟩, RenderResourceInit.Eager ⟨some 1, 10⟩),
     (⟨1, 0⟩, RenderResourceInit.Deferred fun _ _ => ⟨none, 20⟩)]
    (by decide) () ()
  refine ⟨h.1 _ (List.mem_cons_of_mem _ (List.mem_cons_self _ _)), ?_⟩
  exact h.2 _ (List.mem_cons_of_mem _ (List.mem_cons_self _ _)) rfl

/-- C7 counterexample: the claimed invariant quantifies over all operation
sequences, but inserting a deferred init and then an eager init at the same
index 0 reaches a state where index 0 is a key of both current_resources
and queued_resources. -/
theorem c7_disjoint_counterexample :
    0 ∈ keysOf (applyOps (SimpleResourceStore.default Nat Nat Nat Unit Unit)
      [StoreOp.insertOp ⟨0, 0⟩ (RenderResourceInit.Deferred fun _ _ => ⟨none, 0⟩),
       StoreOp.insertOp ⟨0, 0⟩
         (RenderResourceInit.Eager ⟨none, 1⟩)]).current_resources
    ∧ 0 ∈ keysOf (applyOps (SimpleResourceStore.default Nat Nat Nat Unit Unit)
      [StoreOp.insertOp ⟨0, 0⟩ (RenderResourceInit.Deferred fun _ _ => ⟨none, 0⟩),
       StoreOp.insertOp ⟨0, 0⟩
         (RenderResourceInit.Eager ⟨none, 1⟩)]).queued_resources := by
  constructor <;> decide

/-- C7 as amended: in every SimpleResourceStore state reachable from the
default store by a sequence of insert, init_deferred, get_data and reset
operations whose inserted indices are pairwise distinct, an index is a key
of at most one of current_resources and queued_resources. -/
theorem c7_disjoint_of_distinct (ops : List (StoreOp L Desc Data W D))
    (hnd : (insertedIndices ops).Nodup) :
    (applyOps (SimpleResourceStore.default L Desc Data W D)
      ops).disjointMaps := by
  refine applyOps_disjoint ops _ hnd ?_ ?_
  · intro i _
    exact ⟨List.not_mem_nil i, List.not_mem_nil i⟩
  · intro i hi
    exact absurd hi (List.not_mem_nil i)

/-- Witness for the amended C7 at a concrete distinct-index trace. -/
theorem c7_disjoint_of_distinct_witness :
    0 ∉ keysOf (applyOps (SimpleResourceStore.default Nat Nat Nat Unit Unit)
      [StoreOp.insertOp ⟨0, 0⟩ (RenderResourceInit.Eager ⟨none, 1⟩),
       StoreOp.insertOp ⟨1, 0⟩
         (RenderResourceInit.Deferred fun _ _ => ⟨none, 2⟩)]).queued_resources :=
  @c7_disjoint_of_distinct Nat Nat Nat Unit Unit _
    [StoreOp.insertOp ⟨0, 0⟩ (RenderResourceInit.Eager ⟨none, 1⟩),
     StoreOp.insertOp ⟨1, 0⟩
       (RenderResourceInit.Deferred fun _ _ => ⟨none, 2⟩)]
    (by decide) 0 (by decide)

/-- C4 counterexample: calling insert twice with the same index 0 does not
fail; the second eager meta silently replaces the first one. -/
theorem c4_double_insert_counterexample :
    (((SimpleResourceStore.default Nat Nat Nat Unit Unit).insert ⟨0, 0⟩
        (RenderResourceInit.Eager ⟨none, 1⟩)).insert ⟨0, 0⟩
        (RenderResourceInit.Eager ⟨none, 2⟩)).get_data ⟨0, 0⟩
      = some ⟨none, 2⟩
    ∧ (⟨none, 2⟩ : RenderResourceMeta Nat Nat) ≠ ⟨none, 1⟩ := by
  constructor <;> decide

/-- C4 as amended: insert never fails; an insert at an index already present
silently replaces the entry in the target map and leaves the other map
untouched; for any insertion an Eager init is placed into current_resources
and a Deferred init into queued_resources. -/
theorem c4_insert_replaces (s : SimpleResourceStore L Desc Data W D)
    (key : RenderResourceId) (meta : RenderResourceMeta Desc Data)
    (f : DeferredResourceInit Desc Data W D) :
    (s.insert key (RenderResourceInit.Eager meta)).get_data key = some meta
    ∧ (s.insert key (RenderResourceInit.Eager meta)).queued_resources
        = s.queued_resources
    ∧ alookup key.index
        (s.insert key (RenderResourceInit.Deferred f)).queued_resources
        = some f
    ∧ (s.insert key (RenderResourceInit.Deferred f)).current_resources
        = s.current_resources := by
  refine ⟨?_, rfl, ?_, rfl⟩
  · simp only [SimpleResourceStore.insert, SimpleResourceStore.get_data]
    exact alookup_upsert_self key.index meta s.current_resources
  · simp only [SimpleResourceStore.insert]
    exact alookup_upsert_self key.index f s.queued_resources

/-- C5 counterexample: the claim says reset leaves queued_resources empty,
but reset never touches queued_resources: after inserting a deferred init at
index 0 and calling reset, queued_resources is still nonempty. -/
theorem c5_reset_counterexample :
    ((SimpleResourceStore.default Nat Nat Nat Unit Unit).insert ⟨0, 0⟩
      (RenderResourceInit.Deferred fun _ _ =>
        ⟨none, 3⟩)).reset.queued_resources ≠ [] := by
  have h : (((SimpleResourceStore.default Nat Nat Nat Unit Unit).insert ⟨0, 0⟩
      (RenderResourceInit.Deferred fun _ _ =>
        ⟨none, 3⟩)).reset.queued_resources).isEmpty = false := rfl
  intro hq
  rw [hq] at h
  simp at h

/-- C5 as amended: after reset, every index that was in current_resources
and marked in resources_to_save has its meta in last_frame_resources under
the mapped label (provided distinct marked current indices carry distinct
labels), current_resources is empty, stale last_frame entries are dropped
(every surviving entry comes from a marked current index), but
queued_resources and resources_to_save are left unchanged rather than
cleared. -/
theorem c5_reset_promotes (s : SimpleResourceStore L Desc Data W D)
    (hnd : (keysOf s.current_resources).Nodup)
    (hinj : ∀ p1 ∈ s.current_resources, ∀ p2 ∈ s.current_resources,
      alookup p1.1 s.resources_to_save = alookup p2.1 s.resources_to_save →
      alookup p1.1 s.resources_to_save ≠ none → p1.1 = p2.1) :
    (∀ i m l, alookup i s.current_resources = some m →
        alookup i s.resources_to_save = some l →
        alookup l s.reset.last_frame_resources = some m)
    ∧ s.reset.current_resources = []
    ∧ s.reset.queued_resources = s.queued_resources
    ∧ s.reset.resources_to_save = s.resources_to_save
    ∧ ∀ l m, alookup l s.reset.last_frame_resources = some m →
        ∃ i, alookup i s.resources_to_save = some l
          ∧ alookup i s.current_resources = some m := by
  refine ⟨?_, rfl, rfl, rfl, ?_⟩
  · intro i m l hc hm
    have hmem : (i, m) ∈ s.current_resources := alookup_some_mem hc
    have hinj2 : ∀ p2 ∈ s.current_resources,
        alookup p2.1 s.resources_to_save = some l → p2.1 = i := by
      intro p2 hp2 hm2
      refine (hinj (i, m) hmem p2 hp2 ?_ ?_).symm
      · rw [hm, hm2]
      · rw [hm]
        exact fun hh => Option.noConfusion hh
    exact foldSave_lookup_saved s.current_resources [] hnd hinj2 hmem hm
  · intro l m h
    rcases foldSave_lookup_source s.current_resources [] h with h1 | h2
    · obtain ⟨p, hp, hmk, hpm⟩ := h1
      refine ⟨p.1, hmk, ?_⟩
      rw [← hpm]
      exact alookup_of_mem_nodup hnd hp
    · exact absurd h2 (by simp [alookup])

/-- Witness for the amended C5 at a concrete store with one marked current
entry. -/
theorem c5_reset_promotes_witness :
    alookup 7 ((⟨[], [(0, ⟨some 1, 2⟩)], [], [(0, 7)]⟩ :
      SimpleResourceStore Nat Nat Nat Unit Unit).reset).last_frame_resources
      = some ⟨some 1, 2⟩
    ∧ ((⟨[], [(0, ⟨some 1, 2⟩)], [], [(0, 7)]⟩ :
      SimpleResourceStore Nat Nat Nat Unit Unit).reset).current_resources
      = [] := by
  have h := @c5_reset_promotes Nat Nat Nat Unit Unit _
    ⟨[], [(0, ⟨some 1, 2⟩)], [], [(0, 7)]⟩ (by decide) (by decide)
  exact ⟨h.1 0 ⟨some 1, 2⟩ 7 (by decide) (by decide), h.2.1⟩

/-- C6 counterexample: save label 5 for index 0 in frame N and reset; in
frame N+1 insert at index 0 again without any new mark_retain and reset;
label 5 is still present in last_frame_resources, now holding the frame
N+1 meta, because reset never clears resources_to_save. Uses the
spec-modelled mark_retain. -/
theorem c6_retention_counterexample :
    alookup 5 (((((SimpleResourceStore.default Nat Nat Nat Unit Unit).insert
      ⟨0, 0⟩ (RenderResourceInit.Eager ⟨some 1, 10⟩)).mark_retain 0 5).reset.insert
      ⟨0, 0⟩ (RenderResourceInit.Eager ⟨some 2, 20⟩)).reset).last_frame_resources
      = some ⟨some 2, 20⟩ := by
  decide

/-- C6 as amended: reset promotes every mark present in resources_to_save
at reset time, including marks set in earlier frames, because reset never
clears the marks; a label is absent from last_frame_resources after a reset
exactly when no index marked with that label has an entry in
current_resources at that reset. -/
theorem c6_retention_window (s : SimpleResourceStore L Desc Data W D) (l : L)
    (h : ∀ p ∈ s.resources_to_save, p.2 = l →
      alookup p.1 s.current_resources = none) :
    alookup l s.reset.last_frame_resources = none
    ∧ s.reset.resources_to_save = s.resources_to_save := by
  refine ⟨?_, rfl⟩
  have hnone : ∀ p ∈ s.current_resources, ∀ l2,
      alookup p.1 s.resources_to_save = some l2 → l2 ≠ l := by
    intro p hp l2 hm hle
    have hmem : (p.1, l2) ∈ s.resources_to_save := alookup_some_mem hm
    have hcn := h (p.1, l2) hmem hle
    exact alookup_ne_none_of_mem hp hcn
  exact (foldSave_lookup_none s.current_resources [] hnone).trans rfl

/-- Witness for the amended C6: a store with a stale mark for label 5 at
index 0 but no current entry at index 0; after reset label 5 is absent and
the mark is still there. -/
theorem c6_retention_window_witness :
    alookup 5 ((⟨[(5, ⟨some 1, 10⟩)], [], [], [(0, 5)]⟩ :
      SimpleResourceStore Nat Nat Nat Unit Unit).reset).last_frame_resources
      = none
    ∧ ((⟨[(5, ⟨some 1, 10⟩)], [], [], [(0, 5)]⟩ :
      SimpleResourceStore Nat Nat Nat Unit Unit).reset).resources_to_save
      = [(0, 5)] := by
  have h := @c6_retention_window Nat Nat Nat Unit Unit _
    ⟨[(5, ⟨some 1, 10⟩)], [], [], [(0, 5)]⟩ 5 (by decide)
  exact ⟨h.1, h.2⟩

/-- C2 counterexample: after declaring the handle with id (0,0) as a
read-write dependency of an empty dependency set, contains_resource is
false on the handle as it is after the declaration, because the writes set
records the pre-increment id. -/
theorem c2_readwrite_counterexample :
    (RenderDependencies.default.add_read_write ⟨⟨0, 0⟩⟩).1.contains_resource
      (RenderDependencies.default.add_read_write ⟨⟨0, 0⟩⟩).2 = false := by
  decide

/-- C2 as amended: declaring a handle as a read leaves the handle unchanged
and makes contains_resource true; declaring it as a read-write records the
pre-declaration id in writes, so contains_resource is true of the handle as
it was before the declaration, and the handle's generation is incremented
by exactly one, modulo 2^16, per declaration. -/
theorem c2_dependency_declaration (deps : RenderDependencies)
    (h : RenderHandle) :
    (deps.add_read h).2 = h
    ∧ (deps.add_read h).1.contains_resource h = true
    ∧ (deps.add_read_write h).1.contains_resource h = true
    ∧ (deps.add_read_write h).2.id.index = h.id.index
    ∧ (deps.add_read_write h).2.id.generation
        = (h.id.generation + 1) % U16 := by
  refine ⟨rfl, ?_, ?_, rfl, rfl⟩
  · simp only [RenderDependencies.add_read, RenderDependencies.add,
      RenderHandle.into_render_dependency_ref,
      RenderDependencies.contains_resource]
    simp [mem_hsInsert_self h.id deps.reads]
  · simp only [RenderDependencies.add_read_write, RenderDependencies.add,
      RenderHandle.into_render_dependency_mut,
      RenderDependencies.contains_resource]
    simp [mem_hsInsert_self h.id deps.writes]

/-- C3: NodeContext::get on a handle whose id is contained in neither the
reads nor the writes of the node's dependencies fails with the
access-violation panic; the result is the same for every store, because the
dependency check precedes any store lookup. -/
theorem c3_undeclared_access_fails (deps : RenderDependencies)
    (store : SimpleResourceStore L Desc Data W D) (world : W)
    (from_data : Data → W → Option Rty) (resource : RenderHandle)
    (h1 : resource.id ∉ deps.reads) (h2 : resource.id ∉ deps.writes) :
    NodeContext.get ⟨deps, store, world⟩ from_data resource
      = Except.error RenderPanic.accessViolation := by
  have hc : deps.contains_resource resource = false := by
    simp [RenderDependencies.contains_resource, h1, h2]
  simp [NodeContext.get, hc]

/-- Witness for C3 at a concrete context with empty dependencies. -/
theorem c3_undeclared_access_fails_witness :
    NodeContext.get (⟨RenderDependencies.default,
        SimpleResourceStore.default Nat Nat Nat Unit Unit, ()⟩ :
        NodeContext Nat Nat Nat Unit Unit)
      (fun _ _ => (none : Option Nat)) ⟨⟨0, 0⟩⟩
      = Except.error RenderPanic.accessViolation :=
  c3_undeclared_access_fails _ _ _ _ _ (by decide) (by decide)

/-- C8: resolution ignores the generation field: get_data depends on the id
only through its index, and NodeContext::get consults the handle only
through the dependency check and the index passed to the store lookup, so
two handles with equal index on which the dependency check agrees resolve
identically. -/
theorem c8_generation_ignored (s : SimpleResourceStore L Desc Data W D)
    (k1 k2 : RenderResourceId) (hidx : k1.index = k2.index)
    (deps : RenderDependencies) (world : W)
    (from_data : Data → W → Option Rty) (h1 h2 : RenderHandle)
    (hidx2 : h1.id.index = h2.id.index)
    (hacc : deps.contains_resource h1 = deps.contains_resource h2) :
    s.get_data k1 = s.get_data k2
    ∧ NodeContext.get ⟨deps, s, world⟩ from_data h1
      = NodeContext.get ⟨deps, s, world⟩ from_data h2 := by
  constructor
  · simp [SimpleResourceStore.get_data, hidx]
  · simp [NodeContext.get, hacc, hidx2, RenderStore.get]

/-- Witness for C8 at two handles sharing index 0 with generations 0 and
5. -/
theorem c8_generation_ignored_witness :
    (SimpleResourceStore.default Nat Nat Nat Unit Unit).get_data ⟨0, 0⟩
      = (SimpleResourceStore.default Nat Nat Nat Unit Unit).get_data ⟨0, 5⟩
    ∧ NodeContext.get (⟨RenderDependencies.default,
        SimpleResourceStore.default Nat Nat Nat Unit Unit, ()⟩ :
        NodeContext Nat Nat Nat Unit Unit)
        (fun _ _ => (none : Option Nat)) ⟨⟨0, 0⟩⟩
      = NodeContext.get (⟨RenderDependencies.default,
        SimpleResourceStore.default Nat Nat Nat Unit Unit, ()⟩ :
        NodeContext Nat Nat Nat Unit Unit)
        (fun _ _ => (none : Option Nat)) ⟨⟨0, 5⟩⟩ :=
  c8_generation_ignored _ _ _ rfl _ _ _ _ _ rfl rfl

/-- C9 (evidence for the code bug): RenderGraphBuilder::new_resource on the
default graph reaches the unimplemented RenderStore::insert through generic
trait dispatch and fails with the todo panic instead of returning a
generation-0 handle carrying the allocator index. -/
theorem c9_new_resource_panics :
    RenderGraphBuilder.new_resource
      (RenderGraph.default Nat Nat Nat Unit Unit)
      (RenderResourceInit.Eager ⟨none, 0⟩)
      = Except.error RenderPanic.todoUnimplemented := rfl

/-- C10: the RenderStore trait implementation on SimpleResourceStore is
unimplemented: insert, get and init_queued_resources fail with the todo
panic on every call; consequently RenderGraphBuilder::new_resource always
fails with the todo panic, and NodeContext::get fails with the todo panic
whenever the handle passes the dependency check, regardless of what was
inserted through the inherent methods. -/
theorem c10_trait_unimplemented :
    (∀ (s : SimpleResourceStore L Desc Data W D) (key : Nat)
        (data : RenderResourceInit Desc Data W D),
      RenderStore.insert s key data
        = Except.error RenderPanic.todoUnimplemented)
    ∧ (∀ (s : SimpleResourceStore L Desc Data W D) (world : W) (key : Nat),
      RenderStore.get s world key
        = Except.error RenderPanic.todoUnimplemented)
    ∧ (∀ (s : SimpleResourceStore L Desc Data W D) (world : W) (device : D),
      RenderStore.init_queued_resources s world device
        = Except.error RenderPanic.todoUnimplemented)
    ∧ (∀ (g : RenderGraph L Desc Data W D)
        (r : RenderResourceInit Desc Data W D),
      RenderGraphBuilder.new_resource g r
        = Except.error RenderPanic.todoUnimplemented)
    ∧ ∀ (deps : RenderDependencies) (s : SimpleResourceStore L Desc Data W D)
        (world : W) (from_data : Data → W → Option Rty) (h : RenderHandle),
      deps.contains_resource h = true →
      NodeContext.get ⟨deps, s, world⟩ from_data h
        = Except.error RenderPanic.todoUnimplemented := by
  refine ⟨fun s key data => rfl, fun s world key => rfl,
    fun s world device => rfl, fun g r => rfl, ?_⟩
  intro deps s world from_data h hc
  simp [NodeContext.get, hc, RenderStore.get]

/-- Witness for C10 at concrete arguments, with a handle that is contained
in the declared dependencies. -/
theorem c10_trait_unimplemented_witness :
    RenderStore.insert (SimpleResourceStore.default Nat Nat Nat Unit Unit) 0
      (RenderResourceInit.Eager ⟨none, 0⟩)
      = Except.error RenderPanic.todoUnimplemented
    ∧ NodeContext.get (⟨RenderDependencies.default.add
          (RenderDependency.Read ⟨0, 0⟩),
        SimpleResourceStore.default Nat Nat Nat Unit Unit, ()⟩ :
        NodeContext Nat Nat Nat Unit Unit)
        (fun _ _ => (none : Option Nat)) ⟨⟨0, 0⟩⟩
      = Except.error RenderPanic.todoUnimplemented := by
  have h := @c10_trait_unimplemented Nat Nat Nat Unit Unit Nat
  exact ⟨h.1 _ _ _, h.2.2.2.2 _ _ _ _ _ (by decide)⟩

end RenderGraphV2
